import Mathlib

/-!
Verification of the pattern-matching and file-collection engine of the
`catnip` repository (`src/pattern_matcher.rs`, `src/core/file_collector.rs`).

Rust strings are embedded as `List Char` (Rust `char` and Lean `Char` are
both Unicode scalar values).  Byte positions into a string are explicit
`Nat`s together with `Char.utf8Size`; Rust string slicing `s[a..b]`, which
panics when a byte index is not a character boundary, is embedded as an
`Option`-valued operation where `none` models the panic.  All fallible
matcher operations therefore return `Option Bool`: `some b` is a normal
boolean return, `none` is a panic.
-/

def s2l (s : String) : List Char := s.data

/-- Total UTF-8 byte length of a string, as in Rust `str::len`. -/
def strLen : List Char → Nat
  | [] => 0
  | c :: cs => c.utf8Size + strLen cs

/-- Rust `&s[n..]`: drop `n` bytes; `none` when `n` is not a character
boundary or exceeds the length (Rust panics there). -/
def dropB : List Char → Nat → Option (List Char)
  | s, 0 => some s
  | [], _ + 1 => none
  | c :: cs, n + 1 => if c.utf8Size ≤ n + 1 then dropB cs (n + 1 - c.utf8Size) else none

/-- Take the first `n` bytes; `none` when `n` is not a character boundary
or exceeds the length. -/
def takeB : List Char → Nat → Option (List Char)
  | _, 0 => some []
  | [], _ + 1 => none
  | c :: cs, n + 1 =>
      if c.utf8Size ≤ n + 1 then (takeB cs (n + 1 - c.utf8Size)).map (c :: ·) else none

/-- Rust `&s[a..b]` for `a ≤ b` (the only way the source uses it). -/
def sliceB (s : List Char) (a b : Nat) : Option (List Char) :=
  (dropB s a).bind (fun t => takeB t (b - a))

/-- Rust `str::starts_with` on the character level. -/
def isPfxOf : List Char → List Char → Bool
  | [], _ => true
  | _ :: _, [] => false
  | a :: as, b :: bs => decide (a = b) && isPfxOf as bs

/-- Rust `str::contains(char)`. -/
def containsC (s : List Char) (c : Char) : Bool := s.any (fun d => decide (d = c))

/-- Set membership for the `HashSet<String>` buckets (embedded as lists). -/
def memb (x : List Char) (l : List (List Char)) : Bool := l.any (fun y => decide (y = x))

/-- Rust `str::strip_prefix`. -/
def stripPfx (p s : List Char) : Option (List Char) :=
  if isPfxOf p s then some (s.drop p.length) else none

/-- Rust `pattern.strip_suffix("/*").unwrap_or(pattern)`. -/
def stripSfxStar (p : List Char) : List Char :=
  if isPfxOf ['*', '/'] p.reverse then p.take (p.length - 2) else p

/-- The Unicode `White_Space` code points, the set used by Rust
`char::is_whitespace` / `str::trim`. -/
def rustIsWS (c : Char) : Bool :=
  [9, 10, 11, 12, 13, 32, 0x85, 0xA0, 0x1680, 0x2000, 0x2001, 0x2002, 0x2003,
   0x2004, 0x2005, 0x2006, 0x2007, 0x2008, 0x2009, 0x200A, 0x2028, 0x2029,
   0x202F, 0x205F, 0x3000].any (fun n => decide (c.toNat = n))

/-- Rust `str::trim`. -/
def rustTrim (s : List Char) : List Char :=
  ((s.dropWhile rustIsWS).reverse.dropWhile rustIsWS).reverse

/-- Split on `'/'`, keeping empty segments (Rust `str::split('/')`). -/
def splitSlash : List Char → List (List Char)
  | [] => [[]]
  | c :: rest =>
    let r := splitSlash rest
    if c = '/' then [] :: r
    else
      match r with
      | [] => [[c]]
      | s :: ss => (c :: s) :: ss

/-- Rust `Path::components`, restricted to Unix paths: an optional root
component `"/"`, an optional leading `"."` (kept only at the very start of a
relative path), then the non-empty, non-`"."` segments.  Each component is
rendered as `component.as_os_str()` does. -/
def rustComponents (p : List Char) : List (List Char) :=
  let isAbs : Bool := isPfxOf ['/'] p
  let segs := (splitSlash p).filter (fun s => !s.isEmpty && !decide (s = ['.']))
  (if isAbs then [['/']] else [])
    ++ (if !isAbs && (decide (p = ['.']) || isPfxOf ['.', '/'] p) then [['.']] else [])
    ++ segs

/-- Rust `Path::file_name`: the last component when it is a normal one;
`none` for a path ending in `..`, a bare root, or the empty path. -/
def rustFileName (p : List Char) : Option (List Char) :=
  match (rustComponents p).getLast? with
  | none => none
  | some s => if s = ['/'] || s = ['.'] || s = ['.', '.'] then none else some s

/-- The characters after the last `'.'` of the list, if any. -/
def lastSplitDot : List Char → Option (List Char)
  | [] => none
  | c :: cs =>
    match lastSplitDot cs with
    | some e => some e
    | none => if c = '.' then some cs else none

/-- Rust `Path::extension`: the part of the file name after its last dot,
where a dot at the very start of the file name does not begin an
extension (`".gitignore"` has no extension). -/
def rustExtension (p : List Char) : Option (List Char) :=
  match rustFileName p with
  | none => none
  | some [] => none
  | some (_ :: rest) => lastSplitDot rest

/-- `GlobPart` from `pattern_matcher.rs`. -/
inductive GlobPart where
  | literal : List Char → GlobPart
  | star : GlobPart
  | doubleStar : GlobPart
  | question : GlobPart
deriving DecidableEq, Repr

/-- Push the pending literal run, if non-empty (`parse_glob_pattern`'s
`if !current_literal.is_empty() { parts.push(Literal(...)) }`). -/
def flushAcc (acc : List Char) (tail : List GlobPart) : List GlobPart :=
  if acc.isEmpty then tail else GlobPart.literal acc :: tail

/-- The scanning loop of `parse_glob_pattern`: `acc` is the pending
literal run. -/
def parseGlobAux : List Char → List Char → List GlobPart
  | [], acc => flushAcc acc []
  | [c], acc =>
    if c = '*' then flushAcc acc [GlobPart.star]
    else if c = '?' then flushAcc acc [GlobPart.question]
    else flushAcc (acc ++ [c]) []
  | c :: c2 :: rest, acc =>
    if c = '*' then
      if c2 = '*' then flushAcc acc (GlobPart.doubleStar :: parseGlobAux rest [])
      else flushAcc acc (GlobPart.star :: parseGlobAux (c2 :: rest) [])
    else if c = '?' then flushAcc acc (GlobPart.question :: parseGlobAux (c2 :: rest) [])
    else parseGlobAux (c2 :: rest) (acc ++ [c])

/-- `PatternMatcher::parse_glob_pattern` (the part list; the stored original
pattern string is irrelevant to matching). -/
def parseGlob (p : List Char) : List GlobPart := parseGlobAux p []

/-- `parts[part_idx..].iter().all(|p| matches!(p, Star | DoubleStar))`. -/
def allStars (parts : List GlobPart) : Bool :=
  parts.all (fun p => match p with
    | GlobPart.star => true
    | GlobPart.doubleStar => true
    | _ => false)

/-- The `Star` search loop of `match_parts`: try `i = path_pos+1, ...`,
slicing `path[path_pos..i]` (a panic when `i` splits a character), breaking
at the first slice containing `'/'`.  `f` is the recursive call on the
remaining parts; the fuel counts the remaining iterations. -/
def starLoop (path : List Char) (f : Nat → Option Bool) (pos : Nat) : Nat → Nat → Option Bool
  | _, 0 => some false
  | i, fuel + 1 =>
    if strLen path < i then some false
    else
      match sliceB path pos i with
      | none => none
      | some seg =>
        if containsC seg '/' then some false
        else
          match f i with
          | none => none
          | some true => some true
          | some false => starLoop path f pos (i + 1) fuel

/-- The `DoubleStar` search loop of `match_parts`: no `'/'` restriction and
no slicing of its own. -/
def dstarLoop (path : List Char) (f : Nat → Option Bool) : Nat → Nat → Option Bool
  | _, 0 => some false
  | i, fuel + 1 =>
    if strLen path < i then some false
    else
      match f i with
      | none => none
      | some true => some true
      | some false => dstarLoop path f (i + 1) fuel

/-- `PatternMatcher::match_parts`.  `pos` is the byte position `path_pos`;
the remaining parts stand for `parts[part_idx..]`.  `none` models a Rust
panic (string slicing at a non-boundary byte index). -/
def matchParts (path : List Char) : List GlobPart → Nat → Option Bool
  | [], pos => some (decide (pos = strLen path))
  | p :: rest, pos =>
    if strLen path ≤ pos then some (allStars (p :: rest))
    else
      match p with
      | GlobPart.literal lit =>
        match dropB path pos with
        | none => none
        | some suffix =>
          if isPfxOf lit suffix then matchParts path rest (pos + strLen lit) else some false
      | GlobPart.question =>
        match dropB path pos with
        | none => none
        | some suffix =>
          let nextB : Nat :=
            match suffix with
            | [] => strLen path
            | [_] => strLen path
            | c :: _ :: _ => pos + c.utf8Size
          if decide (pos < strLen path) && !decide ((path[pos]?).getD (Char.ofNat 0) = '/')
          then matchParts path rest nextB
          else some false
      | GlobPart.star =>
        match matchParts path rest pos with
        | none => none
        | some true => some true
        | some false =>
          starLoop path (fun i => matchParts path rest i) pos (pos + 1) (strLen path - pos)
      | GlobPart.doubleStar =>
        match matchParts path rest pos with
        | none => none
        | some true => some true
        | some false =>
          dstarLoop path (fun i => matchParts path rest i) (pos + 1) (strLen path - pos)

/-- The glob scan at the end of `matches_path`: first matching glob wins,
in registration order; a panic anywhere aborts everything. -/
def globScan (path : List Char) : List (List GlobPart) → Option Bool
  | [] => some false
  | g :: gs =>
    match matchParts path g 0 with
    | none => none
    | some true => some true
    | some false => globScan path gs

/-- The four buckets of `PatternMatcher` (the hash sets are embedded as
lists; only membership is ever consulted). -/
structure PatternMatcher where
  exact_filenames : List (List Char)
  exact_extensions : List (List Char)
  exact_directories : List (List Char)
  glob_patterns : List (List GlobPart)
deriving DecidableEq, Repr

def PatternMatcher.empty : PatternMatcher := ⟨[], [], [], []⟩

/-- Steps 2–4 of `categorize_pattern` (exact filename, exact directory,
glob fallback). -/
def categorizeRest (p : List Char) (m : PatternMatcher) : PatternMatcher :=
  if !containsC p '*' && !containsC p '?' && !containsC p '/' then
    { m with exact_filenames := m.exact_filenames ++ [p] }
  else
    let clean := stripSfxStar p
    if !containsC clean '*' && !containsC clean '?' && !containsC clean '/'
        && !containsC clean '.' then
      { m with exact_directories := m.exact_directories ++ [clean] }
    else
      { m with glob_patterns := m.glob_patterns ++ [parseGlob p] }

/-- `PatternMatcher::categorize_pattern`: step 1 (extension patterns)
falls through to the remaining steps when its inner condition fails. -/
def categorize_pattern (p : List Char) (m : PatternMatcher) : PatternMatcher :=
  match stripPfx ['*', '.'] p with
  | some ext =>
    if !containsC ext '*' && !containsC ext '?' && !containsC ext '/' then
      { m with exact_extensions := m.exact_extensions ++ [ext] }
    else categorizeRest p m
  | none => categorizeRest p m

/-- `PatternMatcher::new`: trim each pattern, categorize in order. -/
def PatternMatcher.new (patterns : List (List Char)) : PatternMatcher :=
  patterns.foldl (fun m p => categorize_pattern (rustTrim p) m) PatternMatcher.empty

/-- The extension fast path of `matches_path`. -/
def extHit (m : PatternMatcher) (path : List Char) : Bool :=
  match rustExtension path with
  | some e => memb e m.exact_extensions
  | none => false

/-- `PatternMatcher::matches_path`: the three fast set checks, then the
glob scan over the raw path string. -/
def matchesPath (m : PatternMatcher) (path : List Char) : Option Bool :=
  if memb ((rustFileName path).getD []) m.exact_filenames then some true
  else if extHit m path then some true
  else if (rustComponents path).any (fun c => memb c m.exact_directories) then some true
  else globScan path m.glob_patterns

/-- The disjunction of the three fast set checks of `matches_path`
(the three early `return true`s collapsed into one boolean). -/
def fastHit (m : PatternMatcher) (path : List Char) : Bool :=
  memb ((rustFileName path).getD []) m.exact_filenames || extHit m path
    || (rustComponents path).any (fun c => memb c m.exact_directories)

/-- `is_binary_file` from `file_collector.rs`: a NUL byte within the first
`min(len, 1024)` bytes. -/
def is_binary_file (content : List Nat) : Bool :=
  (content.take 1024).any (fun b => decide (b = 0))

/-- `is_text_file`: full read (`none` = I/O error ⇒ `false`), then the
binary sniff. -/
def is_text_file (readRes : Option (List Nat)) : Bool :=
  match readRes with
  | some content => !is_binary_file content
  | none => false

/-- `should_include_file`: exclude check, include check, then metadata
size window (`metadata = none` is a failed stat ⇒ `false`). -/
def should_include_file (path : List Char) (exclude_matcher include_matcher : PatternMatcher)
    (max_size_bytes : Nat) (metadata : Option Nat) : Option Bool :=
  match matchesPath exclude_matcher path with
  | none => none
  | some true => some false
  | some false =>
    match matchesPath include_matcher path with
    | none => none
    | some false => some false
    | some true =>
      match metadata with
      | some len => some (decide (len ≤ max_size_bytes) && decide (0 < len))
      | none => some false

/-- The per-file admission test of `collect_files`:
`should_include_file(...) && is_text_file(...)`. -/
def fileAdmitted (path : List Char) (excl incl : PatternMatcher) (maxSize : Nat)
    (metadata : Option Nat) (readRes : Option (List Nat)) : Option Bool :=
  match should_include_file path excl incl maxSize metadata with
  | none => none
  | some false => some false
  | some true => some (is_text_file readRes)

/-- The fixed skip-list of `should_skip_directory`. -/
def SKIP_DIRS : List (List Char) :=
  [s2l ".git", s2l ".svn", s2l ".hg", s2l ".bzr", s2l "node_modules", s2l "__pycache__",
   s2l ".mypy_cache", s2l ".pytest_cache", s2l ".vscode", s2l ".idea", s2l "target",
   s2l "build", s2l "dist", s2l "out"]

/-- `should_skip_directory`: built-in name check first, then the exclude
matcher on the full path. -/
def should_skip_directory (path : List Char) (exclude_matcher : PatternMatcher) : Option Bool :=
  if (match rustFileName path with
      | some n => memb n SKIP_DIRS
      | none => false) then some true
  else matchesPath exclude_matcher path

/-- The include-pattern selection of `collect_files`: the built-in defaults
exactly when the user supplied none. -/
def include_patterns (defaults additional : List (List Char)) : List (List Char) :=
  if additional.isEmpty then defaults else additional

/-- A filesystem subtree: files carry their byte content. -/
inductive FsTree where
  | file : List Char → List Nat → FsTree
  | dir : List Char → List FsTree → FsTree

/-- A well-formed entry name: non-empty and free of `'/'`. -/
def goodName (n : List Char) : Bool := !n.isEmpty && !containsC n '/'

/-- Every name in the forest is well formed (fuel-indexed to keep the
recursion structural; any fuel at least the forest size is enough). -/
def goodForest : Nat → List FsTree → Bool
  | 0, _ => false
  | _ + 1, [] => true
  | fuel + 1, t :: rest =>
    (match t with
     | FsTree.file n _ => goodName n
     | FsTree.dir n cs => goodName n && goodForest fuel cs)
    && goodForest fuel rest

def goodRoot (fuel : Nat) : FsTree → Bool
  | FsTree.file _ _ => true
  | FsTree.dir _ cs => goodForest fuel cs

/-- A single file entry of the walk: admitted files contribute their path. -/
def admitEntry (excl incl : PatternMatcher) (maxSize : Nat) (p : List Char)
    (content : List Nat) : Option (List (List Char)) :=
  match fileAdmitted p excl incl maxSize (some content.length) (some content) with
  | none => none
  | some true => some [p]
  | some false => some []

/-- The `WalkDir` traversal of `collect_files` under a directory already
entered: each child directory is tested by `should_skip_directory` before
being descended into (`filter_entry`), each file by the admission test.
Fuel-indexed to keep the recursion structural; any fuel at least the tree
size is enough, and exhausted fuel yields `none`. -/
def walkChildren (excl incl : PatternMatcher) (maxSize : Nat) :
    Nat → List Char → List FsTree → Option (List (List Char))
  | 0, _, _ => none
  | _ + 1, _, [] => some []
  | fuel + 1, parent, t :: rest =>
    let head : Option (List (List Char)) :=
      match t with
      | FsTree.file name content => admitEntry excl incl maxSize (parent ++ '/' :: name) content
      | FsTree.dir name children =>
        match should_skip_directory (parent ++ '/' :: name) excl with
        | none => none
        | some true => some []
        | some false => walkChildren excl incl maxSize fuel (parent ++ '/' :: name) children
    match head with
    | none => none
    | some hd =>
      match walkChildren excl incl maxSize fuel parent rest with
      | none => none
      | some tl => some (hd ++ tl)

/-- One root of `collect_files`: a root file skips the directory filter
entirely; a root directory is itself subject to `filter_entry`. -/
def walkRoot (excl incl : PatternMatcher) (maxSize : Nat) (fuel : Nat)
    (rootPath : List Char) : FsTree → Option (List (List Char))
  | FsTree.file _ content => admitEntry excl incl maxSize rootPath content
  | FsTree.dir _ children =>
    match should_skip_directory rootPath excl with
    | none => none
    | some true => some []
    | some false => walkChildren excl incl maxSize fuel rootPath children

/-- Modelled from the spec: the documented denotational glob semantics —
`Literal` matches itself, `Question` one non-`'/'` character, `Star` any
run of characters containing no `'/'`, `DoubleStar` any run of characters.
Used as the reference semantics the code is compared against. -/
def specGlobSem : List GlobPart → List Char → Bool
  | [], s => decide (s = [])
  | GlobPart.literal l :: rest, s => isPfxOf l s && specGlobSem rest (s.drop l.length)
  | GlobPart.question :: rest, s =>
    match s with
    | [] => false
    | c :: cs => !decide (c = '/') && specGlobSem rest cs
  | GlobPart.star :: rest, s =>
    (List.range (s.length + 1)).any (fun k => !containsC (s.take k) '/' && specGlobSem rest (s.drop k))
  | GlobPart.doubleStar :: rest, s =>
    (List.range (s.length + 1)).any (fun k => specGlobSem rest (s.drop k))

/-- Part lists produced by `parseGlob` never contain an empty literal. -/
def partsWF (parts : List GlobPart) : Bool :=
  parts.all (fun p => match p with
    | GlobPart.literal l => !l.isEmpty
    | _ => true)

/-- Modelled from the spec: "extension = substring after last `.` in
filename", counting a leading dot like any other dot. -/
def specExtAfterLastDot (filename : List Char) : Option (List Char) :=
  lastSplitDot filename

/-! ## General lemmas about the matcher -/

/-- The three early returns of `matches_path` collapse into one boolean. -/
theorem matchesPath_fast (m : PatternMatcher) (path : List Char) :
    matchesPath m path =
      if fastHit m path then some true else globScan path m.glob_patterns := by
  unfold matchesPath fastHit
  cases h1 : memb ((rustFileName path).getD []) m.exact_filenames <;>
    cases h2 : extHit m path <;>
      cases h3 : (rustComponents path).any (fun c => memb c m.exact_directories) <;>
        simp [h1, h2, h3]

theorem memb_append (x : List Char) (l₁ l₂ : List (List Char)) :
    memb x (l₁ ++ l₂) = (memb x l₁ || memb x l₂) := by
  unfold memb
  exact List.any_append

theorem any_or {α : Type} (l : List α) (f g : α → Bool) :
    l.any (fun x => f x || g x) = (l.any f || l.any g) := by
  induction l with
  | nil => rfl
  | cons a t ih => cases hf : f a <;> cases hg : g a <;> simp [List.any_cons, hf, hg, ih]

theorem globScan_append (path : List Char) (g₁ g₂ : List (List GlobPart)) :
    globScan path (g₁ ++ g₂) =
      match globScan path g₁ with
      | none => none
      | some true => some true
      | some false => globScan path g₂ := by
  induction g₁ with
  | nil => simp [globScan]
  | cons g gs ih =>
    simp only [List.cons_append, globScan]
    cases h : matchParts path g 0 with
    | none => simp
    | some b => cases b <;> simp [ih]

/-- `categorize_pattern` only appends, and what it appends does not depend
on the accumulated matcher. -/
theorem categorize_fields (p : List Char) (m : PatternMatcher) :
    (categorize_pattern p m).exact_filenames
        = m.exact_filenames ++ (categorize_pattern p PatternMatcher.empty).exact_filenames ∧
      (categorize_pattern p m).exact_extensions
        = m.exact_extensions ++ (categorize_pattern p PatternMatcher.empty).exact_extensions ∧
      (categorize_pattern p m).exact_directories
        = m.exact_directories ++ (categorize_pattern p PatternMatcher.empty).exact_directories ∧
      (categorize_pattern p m).glob_patterns
        = m.glob_patterns ++ (categorize_pattern p PatternMatcher.empty).glob_patterns := by
  unfold categorize_pattern categorizeRest
  cases h : stripPfx ['*', '.'] p with
  | none =>
    by_cases h1 : (!containsC p '*' && !containsC p '?' && !containsC p '/') = true <;>
      by_cases h2 : (!containsC (stripSfxStar p) '*' && !containsC (stripSfxStar p) '?'
          && !containsC (stripSfxStar p) '/' && !containsC (stripSfxStar p) '.') = true <;>
        simp [h1, h2, PatternMatcher.empty]
  | some ext =>
    by_cases h0 : (!containsC ext '*' && !containsC ext '?' && !containsC ext '/') = true <;>
      by_cases h1 : (!containsC p '*' && !containsC p '?' && !containsC p '/') = true <;>
        by_cases h2 : (!containsC (stripSfxStar p) '*' && !containsC (stripSfxStar p) '?'
            && !containsC (stripSfxStar p) '/' && !containsC (stripSfxStar p) '.') = true <;>
          simp [h0, h1, h2, PatternMatcher.empty]

/-- The buckets of a two-pattern matcher are the concatenation of the
buckets of the two single-pattern matchers. -/
theorem new_two (A B : List Char) :
    (PatternMatcher.new [A, B]).exact_filenames
        = (PatternMatcher.new [A]).exact_filenames ++ (PatternMatcher.new [B]).exact_filenames ∧
      (PatternMatcher.new [A, B]).exact_extensions
        = (PatternMatcher.new [A]).exact_extensions ++ (PatternMatcher.new [B]).exact_extensions ∧
      (PatternMatcher.new [A, B]).exact_directories
        = (PatternMatcher.new [A]).exact_directories ++ (PatternMatcher.new [B]).exact_directories ∧
      (PatternMatcher.new [A, B]).glob_patterns
        = (PatternMatcher.new [A]).glob_patterns ++ (PatternMatcher.new [B]).glob_patterns := by
  unfold PatternMatcher.new
  simp only [List.foldl]
  exact categorize_fields (rustTrim B) (categorize_pattern (rustTrim A) PatternMatcher.empty)

theorem extHit_union (m mA mB : PatternMatcher) (path : List Char)
    (hm : m.exact_extensions = mA.exact_extensions ++ mB.exact_extensions) :
    extHit m path = (extHit mA path || extHit mB path) := by
  unfold extHit
  cases rustExtension path with
  | none => rfl
  | some e => simp [hm, memb_append]

theorem fastHit_union (mAB mA mB : PatternMatcher) (p : List Char)
    (h1 : mAB.exact_filenames = mA.exact_filenames ++ mB.exact_filenames)
    (h2 : mAB.exact_extensions = mA.exact_extensions ++ mB.exact_extensions)
    (h3 : mAB.exact_directories = mA.exact_directories ++ mB.exact_directories) :
    fastHit mAB p = (fastHit mA p || fastHit mB p) := by
  unfold fastHit
  rw [h1, memb_append, extHit_union mAB mA mB p h2]
  have hfun : (fun c => memb c mAB.exact_directories)
      = (fun c => memb c mA.exact_directories || memb c mB.exact_directories) :=
    funext fun c => by rw [h3, memb_append]
  rw [hfun, any_or]
  cases memb ((rustFileName p).getD []) mA.exact_filenames <;>
    cases memb ((rustFileName p).getD []) mB.exact_filenames <;>
      cases extHit mA p <;> cases extHit mB p <;>
        cases (rustComponents p).any (fun c => memb c mA.exact_directories) <;>
          cases (rustComponents p).any (fun c => memb c mB.exact_directories) <;> rfl

/-! ## Claim theorems -/

/-- Claim C1 (evidence of the code bug): the matcher built from the single
dot-free, slash-free pattern `"target"` does **not** match
`"project/target/debug/build"`, although `"target"` is a whole path
component of it: `categorize_pattern` places every pattern free of `*`,
`?`, `/` into `exact_filenames` before the directory rule can see it, so
only the last path component is ever compared. -/
theorem c1_directory_pattern_ignored :
    matchesPath (PatternMatcher.new [s2l "target"]) (s2l "project/target/debug/build")
      = some false := by decide

/-- Claim C2 (evidence of the code bug): the matchers built from
`["target"]` and from `["target/*"]` disagree on `"src/target/file"`:
the bare form lands in `exact_filenames`, the starred form in
`exact_directories`, so only the latter matches interior components. -/
theorem c2_bare_and_starred_disagree :
    matchesPath (PatternMatcher.new [s2l "target"]) (s2l "src/target/file") = some false ∧
      matchesPath (PatternMatcher.new [s2l "target/*"]) (s2l "src/target/file") = some true := by
  decide

/-- Claim C3 (evidence of the code bug): `parse_glob_pattern` turns `**`
into `DoubleStar` **without** consuming the following `/`, which survives
as a mandatory literal; consequently `"**/*.rs"` fails to match the
zero-segment path `"main.rs"`, and likewise the pattern of the repository's
own test, `"**/*.test.js"`, fails on `"app.test.js"`. -/
theorem c3_doublestar_keeps_slash :
    parseGlob (s2l "**/*.rs")
        = [GlobPart.doubleStar, GlobPart.literal (s2l "/"), GlobPart.star,
           GlobPart.literal (s2l ".rs")] ∧
      matchesPath (PatternMatcher.new [s2l "**/*.rs"]) (s2l "main.rs") = some false ∧
      matchesPath (PatternMatcher.new [s2l "**/*.test.js"]) (s2l "app.test.js") = some false := by
  decide

/-- Claim C10 (evidence of the code bug): on the multi-byte path `"aéb"`
with pattern `"a*b"` the `Star` loop slices the path at byte offset 2,
inside the two-byte character `é`, so `matches_path` panics instead of
returning a boolean (`none` in this embedding). -/
theorem c10_matcher_panics_on_multibyte :
    matchesPath (PatternMatcher.new [s2l "a*b"]) (s2l "aéb") = none := by decide

/-- Claim C5, counterexample: a `Question` part is claimed to match only a
non-`'/'` character, but the code reads `path.chars().nth(path_pos)` with a
**byte** offset; on `"é/"` under the glob `"??"` the second `Question`
consumes the `'/'` (the code matches while the documented part semantics
`specGlobSem` rejects). -/
theorem c5_question_matches_slash_cex :
    matchesPath (PatternMatcher.new [s2l "??"]) (s2l "é/") = some true ∧
      specGlobSem (parseGlob (s2l "??")) (s2l "é/") = false := by decide

/-- Claim C6, counterexample: for `e = "gitignore"` the spec's extension
(substring after the last dot of the filename) of `".gitignore"` is
`"gitignore"`, yet the matcher built from `"*.gitignore"` rejects
`".gitignore"`, because Rust's `Path::extension` treats a filename whose
only dot is leading as having no extension. -/
theorem c6_dotfile_cex :
    specExtAfterLastDot (s2l ".gitignore") = some (s2l "gitignore") ∧
      matchesPath (PatternMatcher.new [s2l "*.gitignore"]) (s2l ".gitignore") = some false := by
  decide

/-- Claim C7, counterexample: the union law fails once a glob can panic.
With `A = "a*b"`, `B = "**"` and path `"aéb"`, the matcher for `[A, B]`
panics while scanning `A`'s glob (`none`), although the matcher for `[B]`
alone returns `true`. -/
theorem c7_union_law_cex :
    ¬ (matchesPath (PatternMatcher.new [s2l "a*b", s2l "**"]) (s2l "aéb") = some true ↔
        (matchesPath (PatternMatcher.new [s2l "a*b"]) (s2l "aéb") = some true ∨
          matchesPath (PatternMatcher.new [s2l "**"]) (s2l "aéb") = some true)) := by decide

/-- Claim C7, amended: whenever the two single-pattern matchers return
(no panic), the combined matcher returns their disjunction — the union
law, restricted to non-panicking runs. -/
theorem c7_union_law_no_panic (A B p : List Char) (a b : Bool)
    (hA : matchesPath (PatternMatcher.new [A]) p = some a)
    (hB : matchesPath (PatternMatcher.new [B]) p = some b) :
    matchesPath (PatternMatcher.new [A, B]) p = some (a || b) := by
  obtain ⟨h1, h2, h3, h4⟩ := new_two A B
  rw [matchesPath_fast] at hA hB ⊢
  rw [fastHit_union (PatternMatcher.new [A, B]) (PatternMatcher.new [A])
    (PatternMatcher.new [B]) p h1 h2 h3, h4, globScan_append]
  cases hfa : fastHit (PatternMatcher.new [A]) p with
  | true =>
    rw [hfa] at hA
    cases a with
    | true => simp
    | false => simp at hA
  | false =>
    rw [hfa] at hA
    simp only [Bool.false_eq_true, if_false] at hA
    simp only [Bool.false_or]
    cases hfb : fastHit (PatternMatcher.new [B]) p with
    | true =>
      rw [hfb] at hB
      cases b with
      | true => simp
      | false => simp at hB
    | false =>
      rw [hfb] at hB
      simp only [Bool.false_eq_true, if_false] at hB
      simp only [Bool.false_eq_true, if_false]
      rw [hA]
      cases a with
      | true => simp
      | false => simpa using hB

/-- Witness for `c7_union_law_no_panic` at `A = "*.rs"`, `B = "x"`,
`p = "main.rs"`. -/
theorem c7_union_law_no_panic_witness :
    matchesPath (PatternMatcher.new [s2l "*.rs", s2l "x"]) (s2l "main.rs") = some true := by
  have h := c7_union_law_no_panic (s2l "*.rs") (s2l "x") (s2l "main.rs") true false
    (by decide) (by decide)
  simpa using h

/-- Claim C8: an empty user include list is replaced by the built-in
defaults (never read as "match nothing"), and a non-empty user list
replaces the defaults entirely. -/
theorem c8_include_defaults_substitution (defaults additional : List (List Char)) :
    include_patterns defaults [] = defaults ∧
      (additional ≠ [] → include_patterns defaults additional = additional) := by
  refine ⟨rfl, ?_⟩
  intro h
  cases additional with
  | nil => exact absurd rfl h
  | cons a l => rfl

/-- Witness for `c8_include_defaults_substitution`. -/
theorem c8_include_defaults_substitution_witness :
    include_patterns [s2l "*.rs"] [] = [s2l "*.rs"] ∧
      include_patterns [s2l "*.rs"] [s2l "*.py"] = [s2l "*.py"] :=
  ⟨(c8_include_defaults_substitution [s2l "*.rs"] [s2l "*.py"]).1,
   (c8_include_defaults_substitution [s2l "*.rs"] [s2l "*.py"]).2 (by decide)⟩

/-- Claim C4: a (readable) file is admitted by the collector exactly when
it is not excluded, is included, has size in `(0, max_size_bytes]`, and its
first 1024 bytes contain no NUL byte. -/
theorem c4_admission_iff (path : List Char) (excl incl : PatternMatcher) (maxSize : Nat)
    (content : List Nat) (eb ib : Bool)
    (he : matchesPath excl path = some eb) (hi : matchesPath incl path = some ib) :
    fileAdmitted path excl incl maxSize (some content.length) (some content) = some true ↔
      (eb = false ∧ ib = true ∧ 0 < content.length ∧ content.length ≤ maxSize ∧
        ∀ b ∈ content.take 1024, b ≠ 0) := by
  unfold fileAdmitted should_include_file
  rw [he, hi]
  cases eb <;> cases ib <;>
    by_cases hle : content.length ≤ maxSize <;>
      by_cases hpos : 0 < content.length <;>
        simp [hle, hpos, is_text_file, is_binary_file, List.any_eq_true]

/-- Witness for `c4_admission_iff` on a one-byte `"main.rs"` against the
default-free matchers `[]` (exclude) and `["*.rs"]` (include). -/
theorem c4_admission_iff_witness :
    fileAdmitted (s2l "main.rs") (PatternMatcher.new []) (PatternMatcher.new [s2l "*.rs"]) 5
      (some (([104] : List Nat)).length) (some [104]) = some true :=
  (c4_admission_iff (s2l "main.rs") (PatternMatcher.new []) (PatternMatcher.new [s2l "*.rs"]) 5
      [104] false true (by decide) (by decide)).mpr (by decide)

/-- Claim C6, amended: for any suffix `e` free of `*`, `?`, `/` (and of
surrounding whitespace, so that trimming is the identity), the matcher
built from `"*." + e` matches a path exactly when the path's extension in
Rust's sense equals `e` — where a filename whose only dot is its leading
one has no extension. -/
theorem c6_extension_pattern_semantics (e path : List Char)
    (h1 : containsC e '*' = false) (h2 : containsC e '?' = false)
    (h3 : containsC e '/' = false)
    (h4 : rustTrim ('*' :: '.' :: e) = '*' :: '.' :: e) :
    matchesPath (PatternMatcher.new ['*' :: '.' :: e]) path
      = some (decide (rustExtension path = some e)) := by
  have hm : PatternMatcher.new ['*' :: '.' :: e] = ⟨[], [e], [], []⟩ := by
    unfold PatternMatcher.new
    simp only [List.foldl]
    rw [h4]
    unfold categorize_pattern
    have hp : stripPfx ['*', '.'] ('*' :: '.' :: e) = some e := by
      simp [stripPfx, isPfxOf]
    rw [hp]
    simp [h1, h2, h3, PatternMatcher.empty]
  rw [hm]
  unfold matchesPath
  cases hx : rustExtension path with
  | none => simp [memb, extHit, hx, globScan]
  | some x =>
    simp only [memb, extHit, hx, globScan, List.any_nil, Bool.false_eq_true, if_false,
      List.any_cons, Bool.or_false, Option.some.injEq]
    by_cases hxe : x = e
    · subst hxe
      simp
    · have hef : decide (e = x) = false := by simp [Ne.symm hxe]
      have hxf : decide (x = e) = false := by simp [hxe]
      rw [hef, hxf]
      simp

/-- Witness for `c6_extension_pattern_semantics` at `e = "rs"`,
`path = "main.rs"`. -/
theorem c6_extension_pattern_semantics_witness :
    matchesPath (PatternMatcher.new ['*' :: '.' :: s2l "rs"]) (s2l "main.rs")
      = some (decide (rustExtension (s2l "main.rs") = some (s2l "rs"))) :=
  c6_extension_pattern_semantics (s2l "rs") (s2l "main.rs")
    (by decide) (by decide) (by decide) (by decide)

/-! ## ASCII refinement of the glob engine (claim C5) -/

theorem strLen_ascii (s : List Char) (h : ∀ c ∈ s, c.utf8Size = 1) : strLen s = s.length := by
  induction s with
  | nil => rfl
  | cons c cs ih =>
    have hc := h c (List.mem_cons_self c cs)
    have ihh := ih (fun d hd => h d (List.mem_cons_of_mem c hd))
    simp [strLen, hc, ihh, Nat.add_comm]

theorem dropB_ascii (s : List Char) (h : ∀ c ∈ s, c.utf8Size = 1) :
    ∀ n, n ≤ s.length → dropB s n = some (s.drop n) := by
  induction s with
  | nil =>
    intro n hn
    have : n = 0 := Nat.le_zero.mp (by simpa using hn)
    subst this
    rfl
  | cons c cs ih =>
    intro n hn
    cases n with
    | zero => rfl
    | succ m =>
      have hc := h c (List.mem_cons_self c cs)
      have hm : m ≤ cs.length := by simpa using hn
      have hrec := ih (fun d hd => h d (List.mem_cons_of_mem c hd)) m hm
      simp [dropB, hc, hrec]

theorem takeB_ascii (s : List Char) (h : ∀ c ∈ s, c.utf8Size = 1) :
    ∀ n, n ≤ s.length → takeB s n = some (s.take n) := by
  induction s with
  | nil =>
    intro n hn
    have : n = 0 := Nat.le_zero.mp (by simpa using hn)
    subst this
    rfl
  | cons c cs ih =>
    intro n hn
    cases n with
    | zero => rfl
    | succ m =>
      have hc := h c (List.mem_cons_self c cs)
      have hm : m ≤ cs.length := by simpa using hn
      have hrec := ih (fun d hd => h d (List.mem_cons_of_mem c hd)) m hm
      simp [takeB, hc, hrec]

theorem sliceB_ascii (s : List Char) (h : ∀ c ∈ s, c.utf8Size = 1) (a b : Nat)
    (hab : a ≤ b) (hb : b ≤ s.length) :
    sliceB s a b = some ((s.drop a).take (b - a)) := by
  unfold sliceB
  rw [dropB_ascii s h a (le_trans hab hb)]
  have hsub : ∀ c ∈ s.drop a, c.utf8Size = 1 := fun c hc => h c (List.drop_subset a s hc)
  have hlen : b - a ≤ (s.drop a).length := by
    rw [List.length_drop]
    omega
  simp [takeB_ascii (s.drop a) hsub (b - a) hlen]

theorem isPfxOf_len {l s : List Char} (hp : isPfxOf l s = true) : l.length ≤ s.length := by
  induction l generalizing s with
  | nil => simp
  | cons a as ih =>
    cases s with
    | nil => simp [isPfxOf] at hp
    | cons b bs =>
      simp only [isPfxOf, Bool.and_eq_true, decide_eq_true_eq] at hp
      simpa using Nat.succ_le_succ (ih hp.2)

theorem isPfxOf_strLen {l s : List Char} (hp : isPfxOf l s = true)
    (h : ∀ c ∈ s, c.utf8Size = 1) : strLen l = l.length := by
  induction l generalizing s with
  | nil => rfl
  | cons a as ih =>
    cases s with
    | nil => simp [isPfxOf] at hp
    | cons b bs =>
      simp only [isPfxOf, Bool.and_eq_true, decide_eq_true_eq] at hp
      obtain ⟨rfl, hp2⟩ := hp
      have hb := h a (List.mem_cons_self a bs)
      have ihh := ih hp2 (fun d hd => h d (List.mem_cons_of_mem a hd))
      simp [strLen, hb, ihh, Nat.add_comm]

theorem containsC_iff {s : List Char} {c : Char} : containsC s c = true ↔ c ∈ s := by
  simp [containsC, List.any_eq_true]

theorem mem_take_mono {l : List Char} {m n : Nat} (h : m ≤ n) {c : Char}
    (hc : c ∈ l.take m) : c ∈ l.take n := by
  have heq : l.take m = (l.take n).take m := by
    rw [List.take_take, Nat.min_eq_left h]
  rw [heq] at hc
  exact List.take_subset _ _ hc

theorem specGlobSem_nil_allStars :
    ∀ parts, partsWF parts = true → specGlobSem parts [] = allStars parts := by
  intro parts
  induction parts with
  | nil => intro _; rfl
  | cons p rest ih =>
    intro hwf
    simp only [partsWF, List.all_cons, Bool.and_eq_true] at hwf
    have hwfr : partsWF rest = true := hwf.2
    cases p with
    | literal l =>
      have hl : l ≠ [] := by
        have := hwf.1
        simpa [List.isEmpty_iff] using this
      cases l with
      | nil => exact absurd rfl hl
      | cons a as => simp [specGlobSem, isPfxOf, allStars]
    | star =>
      have h1 : specGlobSem (GlobPart.star :: rest) [] = specGlobSem rest [] := by
        simp [specGlobSem, List.range_succ, containsC]
      rw [h1, ih hwfr]
      simp [allStars, List.all_cons]
    | doubleStar =>
      have h1 : specGlobSem (GlobPart.doubleStar :: rest) [] = specGlobSem rest [] := by
        simp [specGlobSem, List.range_succ]
      rw [h1, ih hwfr]
      simp [allStars, List.all_cons]
    | question => simp [specGlobSem, allStars, List.all_cons]

theorem starLoop_spec (path : List Char) (hA : ∀ c ∈ path, c.utf8Size = 1)
    (f : Nat → Option Bool) (g : Nat → Bool)
    (hf : ∀ j, j ≤ path.length → f j = some (g j)) (pos : Nat) :
    ∀ fuel i, pos < i → path.length < i + fuel →
      ∃ b, starLoop path f pos i fuel = some b
        ∧ (b = true ↔ ∃ k, i ≤ k ∧ k ≤ path.length
            ∧ containsC ((path.drop pos).take (k - pos)) '/' = false ∧ g k = true) := by
  have hstr : strLen path = path.length := strLen_ascii path hA
  intro fuel
  induction fuel with
  | zero =>
    intro i hi hbound
    refine ⟨false, rfl, ?_⟩
    simp only [Bool.false_eq_true, false_iff]
    rintro ⟨k, hk1, hk2, -, -⟩
    omega
  | succ fuel ihf =>
    intro i hi hbound
    by_cases hlen : path.length < i
    · refine ⟨false, ?_, ?_⟩
      · simp [starLoop, hstr, hlen]
      · simp only [Bool.false_eq_true, false_iff]
        rintro ⟨k, hk1, hk2, -, -⟩
        omega
    · push_neg at hlen
      have hnl : ¬ (path.length < i) := Nat.not_lt.mpr hlen
      have hslice := sliceB_ascii path hA pos i (le_of_lt hi) hlen
      by_cases hseg : containsC ((path.drop pos).take (i - pos)) '/' = true
      · refine ⟨false, ?_, ?_⟩
        · simp [starLoop, hstr, hnl, hslice, hseg]
        · simp only [Bool.false_eq_true, false_iff]
          rintro ⟨k, hk1, hk2, hk3, -⟩
          have h1 : ('/' : Char) ∈ (path.drop pos).take (i - pos) := containsC_iff.mp hseg
          have h2 : ('/' : Char) ∈ (path.drop pos).take (k - pos) :=
            mem_take_mono (by omega) h1
          have h3 : containsC ((path.drop pos).take (k - pos)) '/' = true := containsC_iff.mpr h2
          rw [h3] at hk3
          cases hk3
      · have hsegf : containsC ((path.drop pos).take (i - pos)) '/' = false := by
          simpa using hseg
        have hfi := hf i hlen
        by_cases hgi : g i = true
        · refine ⟨true, ?_, ?_⟩
          · simp [starLoop, hstr, hnl, hslice, hsegf, hfi, hgi]
          · simp only [true_iff]
            exact ⟨i, le_refl i, hlen, hsegf, hgi⟩
        · have hgif : g i = false := by simpa using hgi
          obtain ⟨b, heq, hiff⟩ := ihf (i + 1) (by omega) (by omega)
          refine ⟨b, ?_, ?_⟩
          · rw [hgif] at hfi
            simp [starLoop, hstr, hnl, hslice, hsegf, hfi, heq]
          · rw [hiff]
            constructor
            · rintro ⟨k, hk1, hk2, hk3, hk4⟩
              exact ⟨k, by omega, hk2, hk3, hk4⟩
            · rintro ⟨k, hk1, hk2, hk3, hk4⟩
              rcases Nat.eq_or_lt_of_le hk1 with rfl | hlt
              · rw [hk4] at hgif
                cases hgif
              · exact ⟨k, hlt, hk2, hk3, hk4⟩

theorem dstarLoop_spec (path : List Char) (hA : ∀ c ∈ path, c.utf8Size = 1)
    (f : Nat → Option Bool) (g : Nat → Bool)
    (hf : ∀ j, j ≤ path.length → f j = some (g j)) :
    ∀ fuel i, path.length < i + fuel →
      ∃ b, dstarLoop path f i fuel = some b
        ∧ (b = true ↔ ∃ k, i ≤ k ∧ k ≤ path.length ∧ g k = true) := by
  have hstr : strLen path = path.length := strLen_ascii path hA
  intro fuel
  induction fuel with
  | zero =>
    intro i hbound
    refine ⟨false, rfl, ?_⟩
    simp only [Bool.false_eq_true, false_iff]
    rintro ⟨k, hk1, hk2, -⟩
    omega
  | succ fuel ihf =>
    intro i hbound
    by_cases hlen : path.length < i
    · refine ⟨false, ?_, ?_⟩
      · simp [dstarLoop, hstr, hlen]
      · simp only [Bool.false_eq_true, false_iff]
        rintro ⟨k, hk1, hk2, -⟩
        omega
    · push_neg at hlen
      have hnl : ¬ (path.length < i) := Nat.not_lt.mpr hlen
      have hfi := hf i hlen
      by_cases hgi : g i = true
      · refine ⟨true, ?_, ?_⟩
        · simp [dstarLoop, hstr, hnl, hfi, hgi]
        · simp only [true_iff]
          exact ⟨i, le_refl i, hlen, hgi⟩
      · have hgif : g i = false := by simpa using hgi
        obtain ⟨b, heq, hiff⟩ := ihf (i + 1) (by omega)
        refine ⟨b, ?_, ?_⟩
        · rw [hgif] at hfi
          simp [dstarLoop, hstr, hnl, hfi, heq]
        · rw [hiff]
          constructor
          · rintro ⟨k, hk1, hk2, hk3⟩
            exact ⟨k, by omega, hk2, hk3⟩
          · rintro ⟨k, hk1, hk2, hk3⟩
            rcases Nat.eq_or_lt_of_le hk1 with rfl | hlt
            · rw [hk3] at hgif
              cases hgif
            · exact ⟨k, hlt, hk2, hk3⟩

/-- On ASCII paths (every character one UTF-8 byte) the glob engine agrees
with the documented part semantics, for any part list without empty
literals. -/
theorem matchParts_spec_ascii (path : List Char) (hA : ∀ c ∈ path, c.utf8Size = 1) :
    ∀ parts, partsWF parts = true → ∀ pos, pos ≤ path.length →
      matchParts path parts pos = some (specGlobSem parts (path.drop pos)) := by
  have hstr : strLen path = path.length := strLen_ascii path hA
  intro parts
  induction parts with
  | nil =>
    intro _ pos hpos
    have hiff : (pos = strLen path) ↔ (path.drop pos = []) := by
      rw [hstr, List.drop_eq_nil_iff]
      omega
    simp only [matchParts, specGlobSem]
    exact congrArg some (decide_eq_decide.mpr hiff)
  | cons p rest ih =>
    intro hwf pos hpos
    simp only [partsWF, List.all_cons, Bool.and_eq_true] at hwf
    have hwfr : partsWF rest = true := hwf.2
    rcases Nat.eq_or_lt_of_le hpos with heq | hlt
    · subst heq
      have hwfall : partsWF (p :: rest) = true := by
        simp [partsWF, List.all_cons, hwf.1, hwf.2]
      rw [List.drop_length, specGlobSem_nil_allStars _ hwfall]
      simp only [matchParts]
      rw [if_pos hstr.le]
    · have hne : ¬ (strLen path ≤ pos) := by rw [hstr]; omega
      have hdrop := dropB_ascii path hA pos (le_of_lt hlt)
      cases p with
      | literal lit =>
        by_cases hpfx : isPfxOf lit (path.drop pos) = true
        · have hasub : ∀ c ∈ path.drop pos, c.utf8Size = 1 :=
            fun c hc => hA c (List.drop_subset pos path hc)
          have hslen : strLen lit = lit.length := isPfxOf_strLen hpfx hasub
          have hllen : lit.length ≤ (path.drop pos).length := isPfxOf_len hpfx
          have hle2 : pos + lit.length ≤ path.length := by
            rw [List.length_drop] at hllen
            omega
          have hrec := ih hwfr (pos + lit.length) hle2
          have hdd : (path.drop pos).drop lit.length = path.drop (pos + lit.length) := by
            rw [List.drop_drop, Nat.add_comm]
          simp only [matchParts, specGlobSem]
          rw [if_neg hne, hdrop]
          simp [hpfx, hslen, hrec, hdd]
        · have hpf : isPfxOf lit (path.drop pos) = false := by simpa using hpfx
          simp only [matchParts, specGlobSem]
          rw [if_neg hne, hdrop]
          simp [hpf]
      | question =>
        obtain ⟨c, cs, hcons⟩ : ∃ c cs, path.drop pos = c :: cs := by
          cases hd : path.drop pos with
          | nil =>
            rw [List.drop_eq_nil_iff] at hd
            omega
          | cons c cs => exact ⟨c, cs, rfl⟩
        have hcmem : c ∈ path :=
          List.drop_subset pos path (by rw [hcons]; exact List.mem_cons_self c cs)
        have hc1 : c.utf8Size = 1 := hA c hcmem
        have hget : path[pos]? = some c := by
          have h0 : (path.drop pos)[0]? = some c := by
            rw [hcons]
            simp
          rw [List.getElem?_drop] at h0
          simpa using h0
        have hcs : cs = path.drop (pos + 1) := by
          have h1 := congrArg (List.drop 1) hcons
          rw [List.drop_drop] at h1
          simp only [List.drop_succ_cons, List.drop_zero] at h1
          exact h1.symm
        have hrec := ih hwfr (pos + 1) (by omega)
        simp only [matchParts, specGlobSem]
        rw [if_neg hne, hdrop, hcons]
        cases cs with
        | nil =>
          have hlen1 : path.length = pos + 1 := by
            rw [eq_comm, List.drop_eq_nil_iff] at hcs
            omega
          by_cases hcq : c = '/'
          · simp [hstr, hlt, hget, hcq]
          · simp [hstr, hlt, hget, hcq, hlen1, hrec, hcs]
        | cons d ds =>
          by_cases hcq : c = '/'
          · simp [hstr, hlt, hget, hcq]
          · simp [hstr, hlt, hget, hcq, hc1, hrec, hcs]
      | star =>
        have hrec0 := ih hwfr pos (le_of_lt hlt)
        by_cases hz : specGlobSem rest (path.drop pos) = true
        · have hspec : specGlobSem (GlobPart.star :: rest) (path.drop pos) = true := by
            simp only [specGlobSem]
            rw [List.any_eq_true]
            refine ⟨0, ?_, ?_⟩
            · rw [List.mem_range]
              omega
            · simp [containsC, hz]
          simp only [matchParts]
          rw [if_neg hne, hrec0, hz, hspec]
        · have hzf : specGlobSem rest (path.drop pos) = false := by simpa using hz
          obtain ⟨b, heq, hiff⟩ := starLoop_spec path hA (fun i => matchParts path rest i)
            (fun j => specGlobSem rest (path.drop j)) (fun j hj => ih hwfr j hj) pos
            (strLen path - pos) (pos + 1) (by omega) (by rw [hstr]; omega)
          simp only [matchParts]
          rw [if_neg hne, hrec0, hzf, heq]
          show some b = some (specGlobSem (GlobPart.star :: rest) (path.drop pos))
          congr 1
          rw [Bool.eq_iff_iff, hiff]
          simp only [specGlobSem]
          rw [List.any_eq_true]
          constructor
          · rintro ⟨k, hk1, hk2, hk3, hk4⟩
            refine ⟨k - pos, ?_, ?_⟩
            · rw [List.mem_range, List.length_drop]
              omega
            · have hdd : (path.drop pos).drop (k - pos) = path.drop k := by
                rw [List.drop_drop]
                congr 1
                omega
              simp [hk3, hdd, hk4]
          · rintro ⟨k', hk1', hk2'⟩
            rw [List.mem_range, List.length_drop] at hk1'
            rw [Bool.and_eq_true] at hk2'
            obtain ⟨hns, hsp⟩ := hk2'
            have hdd : (path.drop pos).drop k' = path.drop (pos + k') := by
              rw [List.drop_drop]
            rw [hdd] at hsp
            cases Nat.eq_zero_or_pos k' with
            | inl h0 =>
              subst h0
              simp only [Nat.add_zero] at hsp
              rw [hsp] at hzf
              cases hzf
            | inr hposk =>
              refine ⟨pos + k', by omega, by omega, ?_, hsp⟩
              have hkk : pos + k' - pos = k' := by omega
              rw [hkk]
              simpa using hns
      | doubleStar =>
        have hrec0 := ih hwfr pos (le_of_lt hlt)
        by_cases hz : specGlobSem rest (path.drop pos) = true
        · have hspec : specGlobSem (GlobPart.doubleStar :: rest) (path.drop pos) = true := by
            simp only [specGlobSem]
            rw [List.any_eq_true]
            refine ⟨0, ?_, ?_⟩
            · rw [List.mem_range]
              omega
            · simp [hz]
          simp only [matchParts]
          rw [if_neg hne, hrec0, hz, hspec]
        · have hzf : specGlobSem rest (path.drop pos) = false := by simpa using hz
          obtain ⟨b, heq, hiff⟩ := dstarLoop_spec path hA (fun i => matchParts path rest i)
            (fun j => specGlobSem rest (path.drop j)) (fun j hj => ih hwfr j hj)
            (strLen path - pos) (pos + 1) (by rw [hstr]; omega)
          simp only [matchParts]
          rw [if_neg hne, hrec0, hzf, heq]
          show some b = some (specGlobSem (GlobPart.doubleStar :: rest) (path.drop pos))
          congr 1
          rw [Bool.eq_iff_iff, hiff]
          simp only [specGlobSem]
          rw [List.any_eq_true]
          constructor
          · rintro ⟨k, hk1, hk2, hk3⟩
            refine ⟨k - pos, ?_, ?_⟩
            · rw [List.mem_range, List.length_drop]
              omega
            · have hdd : (path.drop pos).drop (k - pos) = path.drop k := by
                rw [List.drop_drop]
                congr 1
                omega
              simp [hdd, hk3]
          · rintro ⟨k', hk1', hk2'⟩
            rw [List.mem_range, List.length_drop] at hk1'
            have hdd : (path.drop pos).drop k' = path.drop (pos + k') := by
              rw [List.drop_drop]
            rw [hdd] at hk2'
            cases Nat.eq_zero_or_pos k' with
            | inl h0 =>
              subst h0
              simp only [Nat.add_zero] at hk2'
              rw [hk2'] at hzf
              cases hzf
            | inr hposk => exact ⟨pos + k', by omega, by omega, hk2'⟩

/-- Claim C5, amended: restricted to ASCII paths (each character one UTF-8
byte, so byte positions and character positions coincide), the glob engine
realises exactly the documented semantics of its parts: `Star` matches only
`'/'`-free runs, `DoubleStar` arbitrary runs, `Question` exactly one
non-`'/'` character (for any part list with no empty literal, as produced
by the parser).  On multi-byte paths the claim fails
(`c5_question_matches_slash_cex`). -/
theorem c5_glob_agrees_spec_on_ascii (parts : List GlobPart) (path : List Char)
    (hA : ∀ c ∈ path, c.utf8Size = 1) (hwf : partsWF parts = true) :
    matchParts path parts 0 = some (specGlobSem parts path) := by
  have h := matchParts_spec_ascii path hA parts hwf 0 (Nat.zero_le _)
  simpa using h

/-- Witness for `c5_glob_agrees_spec_on_ascii` on the glob `"src/*.rs"`
and the path `"src/main.rs"`. -/
theorem c5_glob_agrees_spec_on_ascii_witness :
    matchParts (s2l "src/main.rs") (parseGlob (s2l "src/*.rs")) 0
      = some (specGlobSem (parseGlob (s2l "src/*.rs")) (s2l "src/main.rs")) :=
  c5_glob_agrees_spec_on_ascii (parseGlob (s2l "src/*.rs")) (s2l "src/main.rs")
    (by decide) (by decide)

/-! ## Directory pruning (claim C9) -/

theorem append_slash_assoc (P s X : List Char) :
    (P ++ '/' :: s) ++ X = P ++ '/' :: (s ++ X) := by
  rw [List.append_assoc]
  rfl

theorem append_slash_cancel (P : List Char) {A B : List Char}
    (h : P ++ '/' :: A = P ++ '/' :: B) : A = B := by
  have h2 := List.append_cancel_left h
  injection h2

/-- Splitting a slash-separated concatenation at its first separator: if
`n` is `'/'`-free, any decomposition of `n ++ '/' :: r₁` as `s ++ '/' :: r₂`
either has `s = n` or descends past the first separator. -/
theorem split_slash_lemma {n : List Char} (hn : containsC n '/' = false) :
    ∀ {s r₁ r₂ : List Char}, n ++ '/' :: r₁ = s ++ '/' :: r₂ →
      (s = n ∧ r₁ = r₂) ∨ ∃ s₂, s = n ++ '/' :: s₂ ∧ r₁ = s₂ ++ '/' :: r₂ := by
  induction n with
  | nil =>
    intro s r₁ r₂ h
    cases s with
    | nil =>
      rw [List.nil_append, List.nil_append] at h
      injection h with h1 h2
      exact Or.inl ⟨rfl, h2⟩
    | cons c s' =>
      rw [List.nil_append, List.cons_append] at h
      injection h with h1 h2
      subst h1
      exact Or.inr ⟨s', rfl, h2⟩
  | cons a n' ih =>
    intro s r₁ r₂ h
    have hn' : containsC n' '/' = false := by
      cases hcn : containsC n' '/' with
      | false => rfl
      | true =>
        have hmem : ('/' : Char) ∈ a :: n' := List.mem_cons_of_mem a (containsC_iff.mp hcn)
        rw [containsC_iff.mpr hmem] at hn
        cases hn
    cases s with
    | nil =>
      rw [List.cons_append, List.nil_append] at h
      injection h with h1 h2
      exfalso
      have hmem : ('/' : Char) ∈ a :: n' := by
        rw [h1]
        exact List.mem_cons_self _ _
      rw [containsC_iff.mpr hmem] at hn
      cases hn
    | cons c s' =>
      rw [List.cons_append, List.cons_append] at h
      injection h with h1 h2
      subst h1
      rcases ih hn' h2 with ⟨hs, hr⟩ | ⟨s₂, hs, hr⟩
      · refine Or.inl ⟨?_, hr⟩
        rw [hs]
      · refine Or.inr ⟨s₂, ?_, hr⟩
        rw [hs]
        rfl

/-- Invariant of the directory walk: every path in the result extends the
current directory, and every strict slash-ancestor of it below the current
directory was tested by `should_skip_directory` and found not skippable. -/
theorem walkChildren_safe (excl incl : PatternMatcher) (maxSize : Nat) :
    ∀ fuel parent ts files,
      goodForest fuel ts = true →
      walkChildren excl incl maxSize fuel parent ts = some files →
      ∀ q ∈ files,
        (∃ suffix, q = parent ++ '/' :: suffix) ∧
        (∀ a r, (∃ s, a = parent ++ '/' :: s) → q = a ++ '/' :: r →
          should_skip_directory a excl = some false) := by
  intro fuel
  induction fuel with
  | zero =>
    intro parent ts files hg hw
    cases hg
  | succ fuel ihf =>
    intro parent ts files hg hw q hq
    cases ts with
    | nil =>
      simp [walkChildren] at hw
      subst hw
      cases hq
    | cons t rest =>
      cases t with
      | file name content =>
        have hgt : goodName name = true ∧ goodForest fuel rest = true := by
          simpa [goodForest, Bool.and_eq_true] using hg
        have hgn : goodName name = true := hgt.1
        cases hadm : admitEntry excl incl maxSize (parent ++ '/' :: name) content with
        | none => simp [walkChildren, hadm] at hw
        | some hd =>
          cases htl : walkChildren excl incl maxSize fuel parent rest with
          | none => simp [walkChildren, hadm, htl] at hw
          | some tl =>
            have hfiles : files = hd ++ tl := by
              simp [walkChildren, hadm, htl] at hw
              exact hw.symm
            subst hfiles
            rcases List.mem_append.mp hq with hq1 | hq2
            · have hd_cases : hd = [parent ++ '/' :: name] ∨ hd = [] := by
                unfold admitEntry at hadm
                cases hfa : fileAdmitted (parent ++ '/' :: name) excl incl maxSize
                    (some content.length) (some content) with
                | none => rw [hfa] at hadm; cases hadm
                | some bb =>
                  rw [hfa] at hadm
                  cases bb with
                  | true =>
                    left
                    injection hadm with h
                    exact h.symm
                  | false =>
                    right
                    injection hadm with h
                    exact h.symm
              rcases hd_cases with rfl | rfl
              · have hqp : q = parent ++ '/' :: name := by simpa using hq1
                subst hqp
                refine ⟨⟨name, rfl⟩, ?_⟩
                intro a r ⟨s, has⟩ hqa
                exfalso
                subst has
                rw [append_slash_assoc] at hqa
                have hkey : name = s ++ '/' :: r := append_slash_cancel parent hqa
                have hmem : ('/' : Char) ∈ name := by
                  rw [hkey]
                  exact List.mem_append.mpr (Or.inr (List.mem_cons_self _ _))
                have : containsC name '/' = true := containsC_iff.mpr hmem
                simp [goodName, this] at hgn
              · cases hq1
            · exact ihf parent rest tl hgt.2 htl q hq2
      | dir name children =>
        have hgt : (goodName name = true ∧ goodForest fuel children = true)
            ∧ goodForest fuel rest = true := by
          simpa [goodForest, Bool.and_eq_true] using hg
        have hgn : goodName name = true := hgt.1.1
        have hgc : goodForest fuel children = true := hgt.1.2
        cases hskip : should_skip_directory (parent ++ '/' :: name) excl with
        | none => simp [walkChildren, hskip] at hw
        | some sb =>
          cases sb with
          | true =>
            cases htl : walkChildren excl incl maxSize fuel parent rest with
            | none => simp [walkChildren, hskip, htl] at hw
            | some tl =>
              have hfiles : files = tl := by
                simp [walkChildren, hskip, htl] at hw
                exact hw.symm
              subst hfiles
              exact ihf parent rest files hgt.2 htl q hq
          | false =>
            cases hhd : walkChildren excl incl maxSize fuel (parent ++ '/' :: name) children with
            | none => simp [walkChildren, hskip, hhd] at hw
            | some hd =>
              cases htl : walkChildren excl incl maxSize fuel parent rest with
              | none => simp [walkChildren, hskip, hhd, htl] at hw
              | some tl =>
                have hfiles : files = hd ++ tl := by
                  simp [walkChildren, hskip, hhd, htl] at hw
                  exact hw.symm
                subst hfiles
                rcases List.mem_append.mp hq with hq1 | hq2
                · obtain ⟨⟨suffix, hqsuf⟩, Hanc⟩ :=
                    ihf (parent ++ '/' :: name) children hd hgc hhd q hq1
                  have hnslash : containsC name '/' = false := by
                    rcases hb : containsC name '/' with _ | _
                    · rfl
                    · simp [goodName, hb] at hgn
                  refine ⟨⟨name ++ '/' :: suffix, ?_⟩, ?_⟩
                  · rw [hqsuf, append_slash_assoc]
                  · intro a r ⟨s, has⟩ hqa
                    subst has
                    rw [hqsuf, append_slash_assoc] at hqa
                    rw [append_slash_assoc] at hqa
                    have hkey : name ++ '/' :: suffix = s ++ '/' :: r :=
                      append_slash_cancel parent hqa
                    rcases split_slash_lemma hnslash hkey with ⟨hs, hr⟩ | ⟨s₂, hs, hr⟩
                    · rw [hs]
                      exact hskip
                    · refine Hanc (parent ++ '/' :: s) r ⟨s₂, ?_⟩ ?_
                      · rw [hs, append_slash_assoc]
                      · rw [hqsuf, hr, append_slash_assoc, append_slash_assoc]
                        rw [hs, append_slash_assoc]
                · exact ihf parent rest tl hgt.2 htl q hq2

/-- Claim C9: no file returned by the walk lies under a directory that the
exclude matcher or the built-in skip-list flags — every directory level
strictly between the walk root and a returned file (the root itself
included, when the root is a directory) passed `should_skip_directory`
with result `false`.  Entry names are assumed non-empty and `'/'`-free. -/
theorem c9_skipped_directory_never_contributes
    (excl incl : PatternMatcher) (maxSize fuel : Nat) (rootPath : List Char) (t : FsTree)
    (files : List (List Char)) (q a r : List Char)
    (hg : goodRoot fuel t = true)
    (hw : walkRoot excl incl maxSize fuel rootPath t = some files)
    (hq : q ∈ files)
    (ha : a = rootPath ∨ ∃ s, a = rootPath ++ '/' :: s)
    (hqa : q = a ++ '/' :: r) :
    should_skip_directory a excl = some false := by
  cases t with
  | file name content =>
    simp only [walkRoot] at hw
    unfold admitEntry at hw
    cases hfa : fileAdmitted rootPath excl incl maxSize (some content.length) (some content) with
    | none => rw [hfa] at hw; cases hw
    | some bb =>
      rw [hfa] at hw
      cases bb with
      | false =>
        injection hw with h
        subst h
        cases hq
      | true =>
        injection hw with h
        subst h
        have hqr : q = rootPath := by simpa using hq
        subst hqr
        exfalso
        rcases ha with rfl | ⟨s, rfl⟩
        · have hlen := congrArg List.length hqa
          simp at hlen
        · rw [append_slash_assoc] at hqa
          have hlen := congrArg List.length hqa
          simp [List.length_append] at hlen
  | dir name children =>
    simp only [walkRoot] at hw
    cases hskip : should_skip_directory rootPath excl with
    | none => rw [hskip] at hw; cases hw
    | some sb =>
      rw [hskip] at hw
      cases sb with
      | true =>
        injection hw with h
        subst h
        cases hq
      | false =>
        rcases ha with rfl | ⟨s, has⟩
        · exact hskip
        · have H := walkChildren_safe excl incl maxSize fuel rootPath children files
            (by simpa [goodRoot] using hg) hw q hq
          exact H.2 a r ⟨s, has⟩ hqa

/-- Witness for `c9_skipped_directory_never_contributes`: a one-directory
tree whose single file is admitted. -/
theorem c9_skipped_directory_never_contributes_witness :
    should_skip_directory (s2l "proj") (PatternMatcher.new []) = some false :=
  c9_skipped_directory_never_contributes (PatternMatcher.new [])
    (PatternMatcher.new [s2l "*.rs"]) 10 5 (s2l "proj")
    (FsTree.dir (s2l "proj") [FsTree.file (s2l "main.rs") [104]])
    [s2l "proj/main.rs"] (s2l "proj/main.rs") (s2l "proj") (s2l "main.rs")
    (by decide) (by decide) (by decide) (Or.inl rfl) (by decide)
